import Mathlib

/-!
Shallow embedding of `codec/frame/varint_length.go` from go-netty:
the varint length-field frame codec, together with the Go standard
library functions it calls (`binary.Uvarint`, `binary.PutUvarint`,
`binary.ReadUvarint` from `encoding/binary`).

Bytes are modelled as `Nat` (values below 256); byte slices and
streams as `List Nat`; `uint64` arithmetic carries an explicit
`% 2^64`; the Go `int` return of `binary.Uvarint` is an `Int`.
A panic raised through `utils.Assert` / `utils.AssertIf` is modelled
as an `Except.error` carrying the error condition.
-/

/-- `binary.MaxVarintLen64`: maximum length of a varint-encoded 64-bit
integer, in bytes. -/
def MaxVarintLen64 : Nat := 10

/-- The four failure conditions the codec can raise.
`malformedVarint` stands for the errors of `binary.ReadUvarint`
(overflow, or the byte source exhausted mid-sequence);
`frameTooLarge` for the two "frame length too large" assertions;
`incompletePacket` for the "incomplete packet" assertion;
`unsupportedMessageType` for the "unrecognized type" error of the
default switch arms. -/
inductive CodecError where
  | malformedVarint : CodecError
  | frameTooLarge : CodecError
  | incompletePacket : CodecError
  | unsupportedMessageType : CodecError
deriving DecidableEq, Repr

/-- A `netty.Message` as the codec inspects it: an `io.Reader`
(streaming byte source, given by the bytes still to be read), a
`[]byte` (materialized buffer), or any other shape. -/
inductive Message where
  | reader (bs : List Nat) : Message
  | bytes (bs : List Nat) : Message
  | other : Message
deriving DecidableEq, Repr

/-- `io.LimitReader(r, n)`: a view over the underlying source `source`
that yields at most `limit` further bytes. -/
structure LimitedReader where
  limit : Nat
  source : List Nat
deriving DecidableEq, Repr

/-- Reading a `LimitedReader` to exhaustion: the bytes the view yields,
paired with the bytes left unconsumed in the underlying source. -/
def LimitedReader.readAll (lr : LimitedReader) : List Nat × List Nat :=
  (lr.source.take lr.limit, lr.source.drop lr.limit)

/-- What the decoder hands to `ctx.HandleRead`: a limited stream view
in the `io.Reader` arm, or the payload bytes (`bytes.NewReader(r[n:])`)
in the `[]byte` arm. -/
inductive Decoded where
  | stream (view : LimitedReader) : Decoded
  | buffer (payload : List Nat) : Decoded
deriving DecidableEq, Repr

/-- Loop body of `binary.Uvarint(buf)`: state is the remaining bytes,
the accumulator `x`, the shift `s` and the index `i`.  Returns
`(value, bytesRead)`; `bytesRead = 0` means the buffer was too small,
`bytesRead < 0` means overflow past 64 bits, with `-bytesRead` bytes
examined. -/
def UvarintGo : List Nat → Nat → Nat → Nat → Nat × Int
  | [], _, _, _ => (0, 0)
  | b :: rest, x, s, i =>
    if i = MaxVarintLen64 then
      (0, -(Int.ofNat (i + 1)))
    else if b < 128 then
      if i = MaxVarintLen64 - 1 ∧ 1 < b then
        (0, -(Int.ofNat (i + 1)))
      else
        ((x ||| (b <<< s % 2 ^ 64)) % 2 ^ 64, Int.ofNat (i + 1))
    else
      UvarintGo rest ((x ||| ((b % 128) <<< s % 2 ^ 64)) % 2 ^ 64) (s + 7) (i + 1)

/-- `binary.Uvarint(buf)`: decode a varint from the front of `buf`. -/
def Uvarint (buf : List Nat) : Nat × Int :=
  UvarintGo buf 0 0 0

/-- `binary.PutUvarint(buf, x)`, as the list of bytes written: emit
7 value bits per byte, low group first, continuation bit `0x80` on
every byte except the last. -/
def PutUvarint (x : Nat) : List Nat :=
  if x < 128 then [x]
  else (x % 128 + 128) :: PutUvarint (x / 128)
decreasing_by exact Nat.div_lt_self (by omega) (by omega)

/-- Loop body of `binary.ReadUvarint(r)` over a byte stream: runs for
at most `MaxVarintLen64` iterations, reading one byte per iteration;
an exhausted source (`io.EOF` / `io.ErrUnexpectedEOF`) or an
unterminated / overflowing sequence is an error.  On success returns
the decoded value and the bytes left in the stream. -/
def ReadUvarintGo : List Nat → Nat → Nat → Nat → Except CodecError (Nat × List Nat)
  | bs, x, s, i =>
    if MaxVarintLen64 ≤ i then
      .error .malformedVarint
    else
      match bs with
      | [] => .error .malformedVarint
      | b :: rest =>
        if b < 128 then
          if i = MaxVarintLen64 - 1 ∧ 1 < b then
            .error .malformedVarint
          else
            .ok ((x ||| (b <<< s % 2 ^ 64)) % 2 ^ 64, rest)
        else
          ReadUvarintGo rest ((x ||| ((b % 128) <<< s % 2 ^ 64)) % 2 ^ 64) (s + 7) (i + 1)

/-- `binary.ReadUvarint(r)`: decode a varint from the front of a
stream, consuming exactly the bytes of the varint. -/
def ReadUvarint (bs : List Nat) : Except CodecError (Nat × List Nat) :=
  ReadUvarintGo bs 0 0 0

/-- `varintLengthFieldCodec.HandleRead`: dispatch on the message shape.
For an `io.Reader`, read the varint length from the stream, reject
lengths above `maxFrameLength`, and pass on `io.LimitReader(r, frameLength)`.
For a `[]byte`, decode the varint at the front, reject lengths above
`maxFrameLength`, reject a buffer whose remainder is not exactly
`frameLength` bytes, and pass on the remainder `r[n:]`.
Anything else is an unrecognized type. -/
def HandleRead (maxFrameLength : Nat) (message : Message) : Except CodecError Decoded :=
  match message with
  | .reader r =>
    match ReadUvarint r with
    | .error e => .error e
    | .ok (frameLength, rest) =>
      if frameLength > maxFrameLength then .error .frameTooLarge
      else .ok (.stream ⟨frameLength, rest⟩)
  | .bytes r =>
    match Uvarint r with
    | (frameLength, n) =>
      if frameLength > maxFrameLength then .error .frameTooLarge
      else if (frameLength : Int) ≠ (r.length : Int) - n then .error .incompletePacket
      else .ok (.buffer (r.drop n.toNat))
  | .other => .error .unsupportedMessageType

/-- `varintLengthFieldCodec.HandleWrite`: resolve the payload bytes
(`[]byte` used directly; an `io.Reader` drained by `ioutil.ReadAll`,
modelled as yielding all its bytes), reject payloads longer than
`maxFrameLength`, then emit the pair (varint header, payload) —
the `[][]byte` handed to `ctx.HandleWrite`. -/
def HandleWrite (maxFrameLength : Nat) (message : Message) :
    Except CodecError (List Nat × List Nat) :=
  match (match message with
         | .bytes r => Except.ok r
         | .reader r => Except.ok r
         | .other => Except.error CodecError.unsupportedMessageType) with
  | .error e => .error e
  | .ok bodyBytes =>
    if bodyBytes.length > maxFrameLength then .error .frameTooLarge
    else .ok (PutUvarint bodyBytes.length, bodyBytes)

example : PutUvarint 300 = [172, 2] := by simp [PutUvarint]
example : Uvarint [172, 2] = (300, 2) := by decide
example : Uvarint (List.replicate 10 128) = (0, 0) := by decide
example : HandleRead 100 (.bytes (List.replicate 10 128)) = .error .incompletePacket := rfl
example : ReadUvarint (List.replicate 10 128) = .error .malformedVarint := rfl
example : HandleRead 1024 (.bytes [5, 104, 101, 108, 108, 111]) =
    .ok (.buffer [104, 101, 108, 108, 111]) := rfl
example : Uvarint (List.replicate 9 128 ++ [2]) = (0, -10) := by decide
example : Uvarint (List.replicate 9 128 ++ [1]) = (2 ^ 63, 10) := by decide
example : Uvarint (List.replicate 11 128) = (0, -11) := by decide
example : ReadUvarint (List.replicate 9 128 ++ [2]) = .error .malformedVarint := rfl
example : ReadUvarint [5, 9, 9] = .ok (5, [9, 9]) := rfl

/-! ### Helper lemmas -/

/-- Bitwise or of disjoint ranges is addition: the accumulator of the
varint loops holds only bits below position `s`. -/
theorem lor_shiftLeft_eq_add {x : Nat} (y s : Nat) (h : x < 2 ^ s) :
    x ||| y <<< s = x + y * 2 ^ s := by
  apply Nat.eq_of_testBit_eq
  intro j
  rw [Nat.testBit_lor, Nat.testBit_shiftLeft]
  have hsum : x + y * 2 ^ s = 2 ^ s * y + x := by ring
  rw [hsum, Nat.testBit_mul_pow_two_add y h j]
  by_cases hj : j < s
  · simp [hj, Nat.not_le_of_lt hj]
  · have hxj : x.testBit j = false :=
      Nat.testBit_eq_false_of_lt (lt_of_lt_of_le h (Nat.pow_le_pow_right (by norm_num) (Nat.le_of_not_lt hj)))
    simp [hj, hxj, Nat.le_of_not_lt hj]

theorem putUvarint_ne_nil (v : Nat) : PutUvarint v ≠ [] := by
  rw [PutUvarint]
  by_cases hv : v < 128 <;> simp [hv]

theorem putUvarint_length_le (k : Nat) : ∀ v, v < 128 ^ (k + 1) → (PutUvarint v).length ≤ k + 1 := by
  induction k with
  | zero =>
    intro v hv
    rw [PutUvarint]
    have : v < 128 := by simpa using hv
    simp [this]
  | succ k ih =>
    intro v hv
    rw [PutUvarint]
    by_cases h : v < 128
    · simp [h]
    · have hdiv : v / 128 < 128 ^ (k + 1) := by
        rw [Nat.div_lt_iff_lt_mul (by norm_num)]
        calc v < 128 ^ (k + 1 + 1) := hv
          _ = 128 ^ (k + 1) * 128 := by ring
      simp only [h, if_false, List.length_cons]
      exact Nat.succ_le_succ (ih (v / 128) hdiv)

theorem putUvarint_length_le_ten {v : Nat} (hv : v < 2 ^ 64) : (PutUvarint v).length ≤ 10 := by
  have : v < 128 ^ 10 := lt_of_lt_of_le hv (by norm_num)
  exact putUvarint_length_le 9 v this

/-- Invariant-carrying form of the varint decode of an encoded value:
running the `binary.Uvarint` loop on `PutUvarint v ++ rest` from
accumulator `x`, shift `s = 7 * i` and index `i` terminates at the end
of the encoding with value `x + v * 2 ^ s`, having read all its bytes. -/
theorem UvarintGo_putUvarint :
    ∀ v rest x s i, s = 7 * i → x < 2 ^ s → x + v * 2 ^ s < 2 ^ 64 →
      i + (PutUvarint v).length ≤ 10 →
      UvarintGo (PutUvarint v ++ rest) x s i =
        (x + v * 2 ^ s, Int.ofNat (i + (PutUvarint v).length)) := by
  intro v
  induction v using Nat.strong_induction_on with
  | _ v ih =>
    intro rest x s i hs hx hbound hlen
    rw [PutUvarint] at hlen ⊢
    by_cases hv : v < 128
    · simp only [hv, if_true, List.length_singleton] at hlen ⊢
      have hvlt : v * 2 ^ s < 2 ^ 64 := lt_of_le_of_lt (Nat.le_add_left _ _) hbound
      have hguard : ¬(i = MaxVarintLen64 - 1 ∧ 1 < v) := by
        rintro ⟨hi9, hv1⟩
        rw [MaxVarintLen64] at hi9
        have hs63 : s = 63 := by omega
        have h2 : 2 * 2 ^ 63 ≤ v * 2 ^ 63 := Nat.mul_le_mul_right _ hv1
        rw [hs63] at hbound
        norm_num at hbound h2
        omega
      have hi10 : ¬(i = MaxVarintLen64) := by rw [MaxVarintLen64]; omega
      simp only [List.singleton_append, UvarintGo, if_neg hi10, if_pos hv, if_neg hguard]
      have h1 : v <<< s % 2 ^ 64 = v <<< s :=
        Nat.mod_eq_of_lt (by rw [Nat.shiftLeft_eq]; exact hvlt)
      rw [h1, lor_shiftLeft_eq_add v s hx, Nat.mod_eq_of_lt hbound]
    · simp only [hv, if_false, List.length_cons, List.cons_append] at hlen ⊢
      have hlenq : 0 < (PutUvarint (v / 128)).length :=
        List.length_pos.mpr (putUvarint_ne_nil (v / 128))
      have hi8 : i ≤ 8 := by omega
      have hi10 : ¬(i = MaxVarintLen64) := by rw [MaxVarintLen64]; omega
      have hblt : ¬(v % 128 + 128 < 128) := by omega
      simp only [UvarintGo, if_neg hi10, if_neg hblt]
      have hb : (v % 128 + 128) % 128 = v % 128 := by omega
      have hpow : (2 : Nat) ^ (s + 7) = 2 ^ s * 128 := by rw [pow_add]; norm_num
      have hs63 : (2 : Nat) ^ (s + 7) ≤ 2 ^ 63 := by
        apply Nat.pow_le_pow_right (by norm_num)
        omega
      have hsl64 : (v % 128) <<< s < 2 ^ 64 := by
        rw [Nat.shiftLeft_eq]
        have h127 : (v % 128) * 2 ^ s ≤ 127 * 2 ^ s := Nat.mul_le_mul_right _ (by omega)
        have : (127 : Nat) * 2 ^ s < 2 ^ s * 128 := by nlinarith [Nat.pos_pow_of_pos s (show 0 < 2 by norm_num)]
        calc (v % 128) * 2 ^ s ≤ 127 * 2 ^ s := h127
          _ < 2 ^ s * 128 := this
          _ = 2 ^ (s + 7) := hpow.symm
          _ ≤ 2 ^ 63 := hs63
          _ < 2 ^ 64 := by norm_num
      have hX7 : x + (v % 128) * 2 ^ s < 2 ^ (s + 7) := by
        have h127 : (v % 128) * 2 ^ s ≤ 127 * 2 ^ s := Nat.mul_le_mul_right _ (by omega)
        rw [hpow]
        have hk : 0 < 2 ^ s := Nat.pos_pow_of_pos s (by norm_num)
        nlinarith
      have hX64 : x + (v % 128) * 2 ^ s < 2 ^ 64 :=
        lt_of_lt_of_le hX7 (le_trans hs63 (by norm_num))
      rw [hb, Nat.mod_eq_of_lt hsl64, lor_shiftLeft_eq_add (v % 128) s hx,
        Nat.mod_eq_of_lt hX64]
      have hv128 : v % 128 + 128 * (v / 128) = v := Nat.mod_add_div v 128
      have hsplit : x + (v % 128) * 2 ^ s + (v / 128) * 2 ^ (s + 7) = x + v * 2 ^ s := by
        calc x + (v % 128) * 2 ^ s + (v / 128) * 2 ^ (s + 7)
            = x + (v % 128 + 128 * (v / 128)) * 2 ^ s := by rw [hpow]; ring
          _ = x + v * 2 ^ s := by rw [hv128]
      have hrec := ih (v / 128) (Nat.div_lt_self (by omega) (by norm_num)) rest
        (x + (v % 128) * 2 ^ s) (s + 7) (i + 1) (by omega) hX7
        (by rw [hsplit]; exact hbound) (by omega)
      rw [hrec, hsplit]
      congr 1
      exact congrArg Int.ofNat (by omega)

/-- Invariant-carrying form of the streaming varint decode: running the
`binary.ReadUvarint` loop on a stream starting with `PutUvarint v`
consumes exactly the encoding and leaves the rest of the stream. -/
theorem ReadUvarintGo_putUvarint :
    ∀ v rest x s i, s = 7 * i → x < 2 ^ s → x + v * 2 ^ s < 2 ^ 64 →
      i + (PutUvarint v).length ≤ 10 →
      ReadUvarintGo (PutUvarint v ++ rest) x s i = .ok (x + v * 2 ^ s, rest) := by
  intro v
  induction v using Nat.strong_induction_on with
  | _ v ih =>
    intro rest x s i hs hx hbound hlen
    rw [PutUvarint] at hlen ⊢
    by_cases hv : v < 128
    · simp only [hv, if_true, List.length_singleton] at hlen ⊢
      have hvlt : v * 2 ^ s < 2 ^ 64 := lt_of_le_of_lt (Nat.le_add_left _ _) hbound
      have hguard : ¬(i = MaxVarintLen64 - 1 ∧ 1 < v) := by
        rintro ⟨hi9, hv1⟩
        rw [MaxVarintLen64] at hi9
        have hs63 : s = 63 := by omega
        have h2 : 2 * 2 ^ 63 ≤ v * 2 ^ 63 := Nat.mul_le_mul_right _ hv1
        rw [hs63] at hbound
        norm_num at hbound h2
        omega
      have hi10 : ¬(MaxVarintLen64 ≤ i) := by rw [MaxVarintLen64]; omega
      simp only [List.singleton_append, ReadUvarintGo, if_neg hi10, if_pos hv, if_neg hguard]
      have h1 : v <<< s % 2 ^ 64 = v <<< s :=
        Nat.mod_eq_of_lt (by rw [Nat.shiftLeft_eq]; exact hvlt)
      rw [h1, lor_shiftLeft_eq_add v s hx, Nat.mod_eq_of_lt hbound]
      rfl
    · simp only [hv, if_false, List.length_cons, List.cons_append] at hlen ⊢
      have hlenq : 0 < (PutUvarint (v / 128)).length :=
        List.length_pos.mpr (putUvarint_ne_nil (v / 128))
      have hi8 : i ≤ 8 := by omega
      have hi10 : ¬(MaxVarintLen64 ≤ i) := by rw [MaxVarintLen64]; omega
      have hblt : ¬(v % 128 + 128 < 128) := by omega
      simp only [ReadUvarintGo, if_neg hi10, if_neg hblt]
      have hb : (v % 128 + 128) % 128 = v % 128 := by omega
      have hpow : (2 : Nat) ^ (s + 7) = 2 ^ s * 128 := by rw [pow_add]; norm_num
      have hs63 : (2 : Nat) ^ (s + 7) ≤ 2 ^ 63 := by
        apply Nat.pow_le_pow_right (by norm_num)
        omega
      have hsl64 : (v % 128) <<< s < 2 ^ 64 := by
        rw [Nat.shiftLeft_eq]
        have h127 : (v % 128) * 2 ^ s ≤ 127 * 2 ^ s := Nat.mul_le_mul_right _ (by omega)
        have : (127 : Nat) * 2 ^ s < 2 ^ s * 128 := by nlinarith [Nat.pos_pow_of_pos s (show 0 < 2 by norm_num)]
        calc (v % 128) * 2 ^ s ≤ 127 * 2 ^ s := h127
          _ < 2 ^ s * 128 := this
          _ = 2 ^ (s + 7) := hpow.symm
          _ ≤ 2 ^ 63 := hs63
          _ < 2 ^ 64 := by norm_num
      have hX7 : x + (v % 128) * 2 ^ s < 2 ^ (s + 7) := by
        have h127 : (v % 128) * 2 ^ s ≤ 127 * 2 ^ s := Nat.mul_le_mul_right _ (by omega)
        rw [hpow]
        have hk : 0 < 2 ^ s := Nat.pos_pow_of_pos s (by norm_num)
        nlinarith
      have hX64 : x + (v % 128) * 2 ^ s < 2 ^ 64 :=
        lt_of_lt_of_le hX7 (le_trans hs63 (by norm_num))
      rw [hb, Nat.mod_eq_of_lt hsl64, lor_shiftLeft_eq_add (v % 128) s hx,
        Nat.mod_eq_of_lt hX64]
      have hv128 : v % 128 + 128 * (v / 128) = v := Nat.mod_add_div v 128
      have hsplit : x + (v % 128) * 2 ^ s + (v / 128) * 2 ^ (s + 7) = x + v * 2 ^ s := by
        calc x + (v % 128) * 2 ^ s + (v / 128) * 2 ^ (s + 7)
            = x + (v % 128 + 128 * (v / 128)) * 2 ^ s := by rw [hpow]; ring
          _ = x + v * 2 ^ s := by rw [hv128]
      have hrec := ih (v / 128) (Nat.div_lt_self (by omega) (by norm_num)) rest
        (x + (v % 128) * 2 ^ s) (s + 7) (i + 1) (by omega) hX7
        (by rw [hsplit]; exact hbound) (by omega)
      rw [hrec, hsplit]

/-- `binary.Uvarint` applied to an encoded value followed by anything:
it returns the value and consumes exactly the encoding. -/
theorem Uvarint_putUvarint_append (v : Nat) (rest : List Nat) (hv : v < 2 ^ 64) :
    Uvarint (PutUvarint v ++ rest) = (v, Int.ofNat (PutUvarint v).length) := by
  have h := UvarintGo_putUvarint v rest 0 0 0 (by omega) (by norm_num)
    (by simpa using hv) (by simpa using putUvarint_length_le_ten hv)
  simpa using h

/-- `binary.ReadUvarint` applied to a stream starting with an encoded
value: it returns the value and the rest of the stream. -/
theorem ReadUvarint_putUvarint_append (v : Nat) (rest : List Nat) (hv : v < 2 ^ 64) :
    ReadUvarint (PutUvarint v ++ rest) = .ok (v, rest) := by
  have h := ReadUvarintGo_putUvarint v rest 0 0 0 (by omega) (by norm_num)
    (by simpa using hv) (by simpa using putUvarint_length_le_ten hv)
  simpa using h

/-- Whenever the `binary.Uvarint` loop reports a non-positive byte
count (buffer too small, or overflow), the value it reports is `0`. -/
theorem UvarintGo_fst_eq_zero_of_snd_nonpos :
    ∀ bs x s i, (UvarintGo bs x s i).2 ≤ 0 → (UvarintGo bs x s i).1 = 0 := by
  intro bs
  induction bs with
  | nil => intro x s i _; rfl
  | cons b rest ih =>
    intro x s i h
    rw [UvarintGo] at h ⊢
    by_cases hi : i = MaxVarintLen64
    · simp [hi]
    · simp only [hi, if_false] at h ⊢
      by_cases hb : b < 128
      · simp only [hb, if_true] at h ⊢
        by_cases hg : i = MaxVarintLen64 - 1 ∧ 1 < b
        · simp [hg]
        · simp only [hg, if_false] at h ⊢
          exfalso
          have h2 : Int.ofNat (i + 1) ≤ 0 := h
          rw [Int.ofNat_eq_natCast] at h2
          omega
      · simp only [hb, if_false] at h ⊢
        exact ih _ _ _ h

/-- Every byte of a varint encoding except the last carries the
continuation bit: it lies in `[128, 256)`. -/
theorem putUvarint_dropLast_high (v : Nat) :
    ∀ b ∈ (PutUvarint v).dropLast, 128 ≤ b ∧ b < 256 := by
  induction v using Nat.strong_induction_on with
  | _ v ih =>
    rw [PutUvarint]
    by_cases hv : v < 128
    · simp [hv]
    · simp only [hv, if_false]
      rw [List.dropLast_cons_of_ne_nil (putUvarint_ne_nil (v / 128))]
      intro b hb
      rcases List.mem_cons.mp hb with hb1 | hb2
      · subst hb1
        omega
      · exact ih (v / 128) (Nat.div_lt_self (by omega) (by norm_num)) b hb2

/-- The last byte of a varint encoding has the continuation bit clear:
it is below 128. -/
theorem putUvarint_getLast_low (v : Nat) :
    ∀ l, (PutUvarint v).getLast? = some l → l < 128 := by
  induction v using Nat.strong_induction_on with
  | _ v ih =>
    rw [PutUvarint]
    by_cases hv : v < 128
    · intro l h
      simp only [hv, if_true, List.getLast?_singleton, Option.some_inj] at h
      omega
    · simp only [hv, if_false]
      intro l h
      obtain ⟨c, t, hct⟩ := List.exists_cons_of_ne_nil (putUvarint_ne_nil (v / 128))
      rw [hct, List.getLast?_cons_cons, ← hct] at h
      exact ih (v / 128) (Nat.div_lt_self (by omega) (by norm_num)) l h

/-- A `[]byte` payload within the size bound encodes to the pair
(varint header, payload). -/
theorem handleWrite_bytes_ok (maxFrameLength : Nat) (P : List Nat)
    (hlen : P.length ≤ maxFrameLength) :
    HandleWrite maxFrameLength (.bytes P) = .ok (PutUvarint P.length, P) := by
  simp only [HandleWrite]
  rw [if_neg (by omega)]

/-- Decoding a materialized buffer holding exactly one well-formed
frame within the size bound succeeds with the payload bytes. -/
theorem handleRead_bytes_framed (maxFrameLength : Nat) (P : List Nat)
    (hmax : maxFrameLength < 2 ^ 63) (hlen : P.length ≤ maxFrameLength) :
    HandleRead maxFrameLength (.bytes (PutUvarint P.length ++ P)) = .ok (.buffer P) := by
  have hv : P.length < 2 ^ 64 := by
    have : (2 : Nat) ^ 63 < 2 ^ 64 := by norm_num
    omega
  simp only [HandleRead, Uvarint_putUvarint_append P.length P hv]
  rw [if_neg (by omega)]
  rw [if_neg (by
    simp only [List.length_append, Int.ofNat_eq_natCast, ne_eq]
    push_cast
    omega)]
  simp only [Int.ofNat_eq_natCast, Int.toNat_natCast]
  rw [List.drop_left]

/-- Decoding a materialized buffer whose varint length prefix exceeds
the size bound fails with `frameTooLarge`, whatever follows. -/
theorem handleRead_bytes_tooLarge (maxFrameLength v : Nat) (T : List Nat)
    (hv64 : v < 2 ^ 64) (hv : maxFrameLength < v) :
    HandleRead maxFrameLength (.bytes (PutUvarint v ++ T)) = .error .frameTooLarge := by
  simp only [HandleRead, Uvarint_putUvarint_append v T hv64]
  rw [if_pos (by omega)]

/-- Decoding a stream whose varint length prefix is within the size
bound succeeds with a view limited to that many bytes. -/
theorem handleRead_reader_framed (maxFrameLength v : Nat) (rest : List Nat)
    (hmax : maxFrameLength < 2 ^ 63) (hv : v ≤ maxFrameLength) :
    HandleRead maxFrameLength (.reader (PutUvarint v ++ rest)) = .ok (.stream ⟨v, rest⟩) := by
  have hv64 : v < 2 ^ 64 := by
    have : (2 : Nat) ^ 63 < 2 ^ 64 := by norm_num
    omega
  simp only [HandleRead, ReadUvarint_putUvarint_append v rest hv64]
  rw [if_neg (by omega)]

/-- Decoding a stream whose varint length prefix exceeds the size
bound fails with `frameTooLarge`. -/
theorem handleRead_reader_tooLarge (maxFrameLength v : Nat) (T : List Nat)
    (hv64 : v < 2 ^ 64) (hv : maxFrameLength < v) :
    HandleRead maxFrameLength (.reader (PutUvarint v ++ T)) = .error .frameTooLarge := by
  simp only [HandleRead, ReadUvarint_putUvarint_append v T hv64]
  rw [if_pos (by omega)]

/-! ### Claims -/

/-- C1: for every payload `P` with `0 ≤ len(P) ≤ maxFrameLength`,
encoding `P` (producing the varint header segment and the payload
segment) and then decoding the concatenation of the two segments as a
materialized buffer succeeds and returns a payload view equal to `P`.
(`maxFrameLength` is a positive Go `int`, hence below `2 ^ 63`.) -/
theorem frame_roundtrip (maxFrameLength : Nat) (P : List Nat)
    (hmax : maxFrameLength < 2 ^ 63) (hlen : P.length ≤ maxFrameLength) :
    HandleWrite maxFrameLength (.bytes P) = .ok (PutUvarint P.length, P) ∧
    HandleRead maxFrameLength (.bytes (PutUvarint P.length ++ P)) = .ok (.buffer P) :=
  ⟨handleWrite_bytes_ok maxFrameLength P hlen,
   handleRead_bytes_framed maxFrameLength P hmax hlen⟩

/-- Evaluation witness for C1 at `maxFrameLength = 1024`,
`P = "hello"`. -/
theorem frame_roundtrip_witness :
    HandleWrite 1024 (.bytes [104, 101, 108, 108, 111]) =
      .ok (PutUvarint 5, [104, 101, 108, 108, 111]) ∧
    HandleRead 1024 (.bytes (PutUvarint 5 ++ [104, 101, 108, 108, 111])) =
      .ok (.buffer [104, 101, 108, 108, 111]) :=
  frame_roundtrip 1024 [104, 101, 108, 108, 111] (by norm_num) (by norm_num)

/-- C2: for every non-negative integer `V` representable in 64 bits,
varint-decoding the varint encoding of `V` yields `(V, n)` with `n`
exactly the byte length of the encoding; the encoding is at most 10
bytes, with the high bit set on every byte except the last (which has
it clear). -/
theorem varint_roundtrip (v : Nat) (hv : v < 2 ^ 64) :
    Uvarint (PutUvarint v) = (v, Int.ofNat (PutUvarint v).length) ∧
    (PutUvarint v).length ≤ 10 ∧
    (∀ b ∈ (PutUvarint v).dropLast, 128 ≤ b ∧ b < 256) ∧
    (∀ l, (PutUvarint v).getLast? = some l → l < 128) := by
  refine ⟨?_, putUvarint_length_le_ten hv, putUvarint_dropLast_high v,
    putUvarint_getLast_low v⟩
  have h := Uvarint_putUvarint_append v [] hv
  simpa using h

/-- Evaluation witness for C2 at `V = 300`: the encoding is
`[0xAC, 0x02]` and decodes back to `(300, 2)`. -/
theorem varint_roundtrip_witness :
    Uvarint (PutUvarint 300) = (300, Int.ofNat (PutUvarint 300).length) ∧
    (PutUvarint 300).length ≤ 10 ∧
    (∀ b ∈ (PutUvarint 300).dropLast, 128 ≤ b ∧ b < 256) ∧
    (∀ l, (PutUvarint 300).getLast? = some l → l < 128) :=
  varint_roundtrip 300 (by norm_num)

/-- C3: in both directions a payload length of exactly
`maxFrameLength` succeeds and a length of `maxFrameLength + 1` fails
with `frameTooLarge`.  The decoder (both for a materialized buffer and
for a stream) rejects as soon as the decoded varint prefix exceeds the
bound, whatever bytes follow; the encoder rejects any payload longer
than the bound (`maxFrameLength + 1` or more, e.g. a 300-byte payload
against a bound of 100) after resolving the payload length, and the
failure result carries no header segment. -/
theorem boundary_maxFrameLength (maxFrameLength : Nat) (P Q : List Nat)
    (hmax : maxFrameLength < 2 ^ 63)
    (hP : P.length = maxFrameLength) (hQ : maxFrameLength < Q.length) :
    HandleWrite maxFrameLength (.bytes P) = .ok (PutUvarint maxFrameLength, P) ∧
    HandleWrite maxFrameLength (.bytes Q) = .error .frameTooLarge ∧
    HandleRead maxFrameLength (.bytes (PutUvarint maxFrameLength ++ P)) = .ok (.buffer P) ∧
    (∀ T : List Nat,
      HandleRead maxFrameLength (.bytes (PutUvarint (maxFrameLength + 1) ++ T)) =
        .error .frameTooLarge) ∧
    HandleRead maxFrameLength (.reader (PutUvarint maxFrameLength ++ P)) =
      .ok (.stream ⟨maxFrameLength, P⟩) ∧
    (∀ T : List Nat,
      HandleRead maxFrameLength (.reader (PutUvarint (maxFrameLength + 1) ++ T)) =
        .error .frameTooLarge) := by
  have hm64 : maxFrameLength + 1 < 2 ^ 64 := by
    have : (2 : Nat) ^ 63 < 2 ^ 64 := by norm_num
    omega
  refine ⟨?_, ?_, ?_, ?_, ?_, ?_⟩
  · have h := handleWrite_bytes_ok maxFrameLength P (le_of_eq hP)
    rwa [hP] at h
  · simp only [HandleWrite]
    rw [if_pos (by omega)]
  · have h := handleRead_bytes_framed maxFrameLength P hmax (le_of_eq hP)
    rwa [hP] at h
  · intro T
    exact handleRead_bytes_tooLarge maxFrameLength (maxFrameLength + 1) T hm64 (by omega)
  · have h := handleRead_reader_framed maxFrameLength maxFrameLength P hmax le_rfl
    exact h
  · intro T
    exact handleRead_reader_tooLarge maxFrameLength (maxFrameLength + 1) T hm64 (by omega)

/-- Evaluation witness for C3 at `maxFrameLength = 2` with payloads of
length 2 and 3. -/
theorem boundary_maxFrameLength_witness :
    HandleWrite 2 (.bytes [5, 6]) = .ok (PutUvarint 2, [5, 6]) ∧
    HandleWrite 2 (.bytes [7, 8, 9]) = .error .frameTooLarge ∧
    HandleRead 2 (.bytes (PutUvarint 2 ++ [5, 6])) = .ok (.buffer [5, 6]) ∧
    (∀ T : List Nat, HandleRead 2 (.bytes (PutUvarint 3 ++ T)) = .error .frameTooLarge) ∧
    HandleRead 2 (.reader (PutUvarint 2 ++ [5, 6])) = .ok (.stream ⟨2, [5, 6]⟩) ∧
    (∀ T : List Nat, HandleRead 2 (.reader (PutUvarint 3 ++ T)) = .error .frameTooLarge) :=
  boundary_maxFrameLength 2 [5, 6] [7, 8, 9] (by norm_num) (by norm_num) (by norm_num)

/-- C4 counterexample: decoding a materialized buffer of ten bytes
that all carry the continuation bit does fail, but not with the
malformed-varint condition: `binary.Uvarint` reports `(0, 0)` (buffer
too small), so the length-mismatch check `0 ≠ 10 - 0` fires first and
the failure is `incompletePacket`. -/
theorem ten_continuation_bytes_counterexample :
    HandleRead 100 (.bytes (List.replicate 10 128)) = .error .incompletePacket ∧
    ¬ HandleRead 100 (.bytes (List.replicate 10 128)) = .error .malformedVarint := by
  refine ⟨rfl, fun h => ?_⟩
  rw [show HandleRead 100 (.bytes (List.replicate 10 128)) = .error .incompletePacket
    from rfl] at h
  exact CodecError.noConfusion (Except.error.inj h)

/-- C4 amended: a materialized buffer of exactly ten bytes, each with
the continuation bit set, fails — with `incompletePacket` (the varint
decode reports zero bytes consumed, and the buffer-length check
rejects), for every `maxFrameLength`.  The same ten bytes fed through
the streaming path do fail with the malformed-varint condition, since
`binary.ReadUvarint` exhausts its maximum width there. -/
theorem ten_continuation_bytes (maxFrameLength : Nat) :
    HandleRead maxFrameLength (.bytes (List.replicate 10 128)) = .error .incompletePacket ∧
    HandleRead maxFrameLength (.reader (List.replicate 10 128)) = .error .malformedVarint :=
  ⟨rfl, rfl⟩

/-- C5: for a materialized buffer whose varint header decodes (with a
positive byte count `n`) to a length `fl` within the bound, the decode
fails with `incompletePacket` exactly when `fl` differs from the
number of bytes remaining after the header — too few and too many
trailing bytes are both rejected. -/
theorem incomplete_iff_length_mismatch (maxFrameLength : Nat) (r : List Nat)
    (fl : Nat) (n : Int) (hdec : Uvarint r = (fl, n)) (_hn : 0 < n)
    (hfl : fl ≤ maxFrameLength) :
    (HandleRead maxFrameLength (.bytes r) = .error .incompletePacket ↔
      (fl : Int) ≠ (r.length : Int) - n) := by
  simp only [HandleRead, hdec]
  rw [if_neg (by omega)]
  by_cases hmis : (fl : Int) ≠ (r.length : Int) - n
  · rw [if_pos hmis]
    simp [hmis]
  · rw [if_neg hmis]
    simp only [hmis, iff_false]
    intro h
    exact Except.noConfusion h

/-- Evaluation witness for C5: header declares 10 bytes but only 8
follow, so the decode fails with `incompletePacket`. -/
theorem incomplete_iff_length_mismatch_witness :
    (HandleRead 100 (.bytes [10, 1, 2, 3, 4, 5, 6, 7, 8]) = .error .incompletePacket ↔
      ((10 : Nat) : Int) ≠ ((([10, 1, 2, 3, 4, 5, 6, 7, 8] : List Nat).length : Int) - 1)) :=
  incomplete_iff_length_mismatch 100 [10, 1, 2, 3, 4, 5, 6, 7, 8] 10 1 rfl
    (by norm_num) (by norm_num)

/-- C6: a message that is neither a streaming byte source nor a byte
buffer is rejected by both directions with the unsupported-type
condition; being pure, the operations do nothing else with it. -/
theorem unsupported_message_type (maxFrameLength : Nat) :
    HandleRead maxFrameLength .other = .error .unsupportedMessageType ∧
    HandleWrite maxFrameLength .other = .error .unsupportedMessageType :=
  ⟨rfl, rfl⟩

/-- C7: for every successful materialized-buffer decode the payload
view is exactly as long as the decoded varint value; and on a stream
holding two concatenated frames, decoding the first frame returns a
view whose limit is the first payload's length, so reading the view to
exhaustion yields exactly that payload and consumes no byte of the
second frame. -/
theorem decode_view_exact (maxFrameLength : Nat) (hmax : maxFrameLength < 2 ^ 63) :
    (∀ r p, HandleRead maxFrameLength (.bytes r) = .ok (.buffer p) →
      (Uvarint r).1 = p.length) ∧
    (∀ P1 frame2 : List Nat, P1.length ≤ maxFrameLength →
      HandleRead maxFrameLength (.reader (PutUvarint P1.length ++ (P1 ++ frame2))) =
        .ok (.stream ⟨P1.length, P1 ++ frame2⟩) ∧
      LimitedReader.readAll ⟨P1.length, P1 ++ frame2⟩ = (P1, frame2)) := by
  constructor
  · intro r p h
    rcases hq : Uvarint r with ⟨fl, n⟩
    simp only [HandleRead, hq] at h
    show fl = p.length
    by_cases h1 : fl > maxFrameLength
    · rw [if_pos h1] at h
      exact absurd h (fun hc => Except.noConfusion hc)
    · rw [if_neg h1] at h
      by_cases h2 : (fl : Int) ≠ (r.length : Int) - n
      · rw [if_pos h2] at h
        exact absurd h (fun hc => Except.noConfusion hc)
      · rw [if_neg h2] at h
        push_neg at h2
        injection h with h3
        injection h3 with hp
        have hD : n ≤ 0 → fl = 0 := fun hn0 => by
          have hz := UvarintGo_fst_eq_zero_of_snd_nonpos r 0 0 0
          rw [show UvarintGo r 0 0 0 = (fl, n) from hq] at hz
          exact hz hn0
        rw [← hp, List.length_drop]
        rcases le_or_lt n 0 with hn0 | hn0
        · have hfl0 := hD hn0
          omega
        · omega
  · intro P1 frame2 hlen
    refine ⟨handleRead_reader_framed maxFrameLength P1.length (P1 ++ frame2) hmax hlen, ?_⟩
    simp only [LimitedReader.readAll, List.take_left, List.drop_left]

/-- Evaluation witness for C7, streaming part: two frames
`[2; 1, 2]` and `[1; 9]` concatenated; decoding the first leaves the
second intact. -/
theorem decode_view_exact_witness :
    HandleRead 5 (.reader (PutUvarint ([1, 2] : List Nat).length ++ ([1, 2] ++ [1, 9]))) =
      .ok (.stream ⟨([1, 2] : List Nat).length, [1, 2] ++ [1, 9]⟩) ∧
    LimitedReader.readAll ⟨([1, 2] : List Nat).length, [1, 2] ++ [1, 9]⟩ = ([1, 2], [1, 9]) :=
  (decode_view_exact 5 (by norm_num)).2 [1, 2] [1, 9] (by norm_num)

/-- C8: every successful encode yields a pair (header, payload) whose
header varint-decodes to exactly the payload segment's length (having
consumed the whole header), and a raw `[]byte` input is passed through
as the payload unmodified. -/
theorem encode_header_matches (maxFrameLength : Nat) (msg : Message)
    (header payload : List Nat) (hmax : maxFrameLength < 2 ^ 63)
    (h : HandleWrite maxFrameLength msg = .ok (header, payload)) :
    Uvarint header = (payload.length, Int.ofNat header.length) ∧
    (∀ bs, msg = .bytes bs → payload = bs) := by
  have main : payload.length ≤ maxFrameLength ∧ header = PutUvarint payload.length ∧
      (∀ bs, msg = .bytes bs → payload = bs) := by
    cases msg with
    | other => exact absurd h (fun hc => Except.noConfusion hc)
    | bytes r =>
      simp only [HandleWrite] at h
      by_cases hl : r.length > maxFrameLength
      · rw [if_pos hl] at h
        exact absurd h (fun hc => Except.noConfusion hc)
      · rw [if_neg hl] at h
        injection h with h1
        injection h1 with hh hp
        subst hp
        exact ⟨by omega, hh.symm, fun bs hbs => Message.bytes.inj hbs⟩
    | reader r =>
      simp only [HandleWrite] at h
      by_cases hl : r.length > maxFrameLength
      · rw [if_pos hl] at h
        exact absurd h (fun hc => Except.noConfusion hc)
      · rw [if_neg hl] at h
        injection h with h1
        injection h1 with hh hp
        subst hp
        exact ⟨by omega, hh.symm, fun bs hbs => Message.noConfusion hbs⟩
  obtain ⟨hle, hh, hpass⟩ := main
  refine ⟨?_, hpass⟩
  have h64 : payload.length < 2 ^ 64 := by
    have : (2 : Nat) ^ 63 < 2 ^ 64 := by norm_num
    omega
  rw [hh]
  simpa using Uvarint_putUvarint_append payload.length [] h64

/-- Evaluation witness for C8 at `maxFrameLength = 5`,
payload `[1, 2, 3]`. -/
theorem encode_header_matches_witness :
    Uvarint (PutUvarint 3) = (([1, 2, 3] : List Nat).length, Int.ofNat (PutUvarint 3).length) ∧
    (∀ bs, Message.bytes [1, 2, 3] = Message.bytes bs → [1, 2, 3] = bs) :=
  encode_header_matches 5 (.bytes [1, 2, 3]) (PutUvarint 3) [1, 2, 3] (by norm_num)
    (handleWrite_bytes_ok 5 [1, 2, 3] (by norm_num))

/-- C9: decoding an empty materialized buffer succeeds:
`binary.Uvarint` reports value `0` with `0` bytes consumed, the
length check `0 = 0 - 0` passes, and the result is an empty payload
view — no `malformedVarint` and no `incompletePacket`. -/
theorem empty_buffer_decodes (maxFrameLength : Nat) :
    HandleRead maxFrameLength (.bytes []) = .ok (.buffer []) :=
  rfl

/-- C10: whenever `binary.Uvarint` reports a non-positive consumed
byte count `n ≤ 0` on the materialized-buffer path, either the buffer
was empty (then `n = 0` and the decode succeeds with an empty view) or
the decode fails with `incompletePacket` — in the embedding the slice
`r[n:]` sits in the branch below both checks, so it is never reached
with a negative offset. -/
theorem no_negative_slice (maxFrameLength : Nat) (r : List Nat) (fl : Nat) (n : Int)
    (hdec : Uvarint r = (fl, n)) (hn : n ≤ 0) :
    (r = [] ∧ n = 0 ∧ HandleRead maxFrameLength (.bytes r) = .ok (.buffer [])) ∨
    HandleRead maxFrameLength (.bytes r) = .error .incompletePacket := by
  have hfl0 : fl = 0 := by
    have hz := UvarintGo_fst_eq_zero_of_snd_nonpos r 0 0 0
    rw [show UvarintGo r 0 0 0 = (fl, n) from hdec] at hz
    exact hz hn
  subst hfl0
  by_cases hr : r = []
  · subst hr
    left
    have h0 : ((0 : Nat), (0 : Int)) = ((0 : Nat), n) := hdec
    injection h0 with _ h1
    exact ⟨rfl, h1.symm, rfl⟩
  · right
    simp only [HandleRead, hdec]
    rw [if_neg (by omega)]
    rw [if_pos (by
      have hlen : 0 < r.length := List.length_pos.mpr hr
      push_cast
      omega)]

/-- Evaluation witness for C10: eleven continuation bytes make
`binary.Uvarint` report overflow (`n = -11`), and the decode fails
with `incompletePacket` before any slicing. -/
theorem no_negative_slice_witness :
    (List.replicate 11 128 = ([] : List Nat) ∧ (-11 : Int) = 0 ∧
      HandleRead 7 (.bytes (List.replicate 11 128)) = .ok (.buffer [])) ∨
    HandleRead 7 (.bytes (List.replicate 11 128)) = .error .incompletePacket :=
  no_negative_slice 7 (List.replicate 11 128) 0 (-11) (by decide) (by norm_num)
